import Mathlib

set_option maxHeartbeats 1600000
set_option maxRecDepth 8192

/-!
Verification of the segmentation-and-validation pipeline of
`measurements.py` (nuclei segmentation, contour extraction, centrosome
detection, cell-boundary packaging, and the geometric validator).

The Python source is embedded shallowly:

* points carry rational coordinates (the source works with Python floats;
  every geometric quantity the claims touch is produced by ring operations
  on the input coordinates, which the rationals model exactly);
* polygons are vertex lists, as in `shapely.geometry.Polygon`;
* external library primitives (shapely containment, `skimage` thresholding,
  `find_contours`, `cv2.findContours`, watershed) are either parameters of
  the embedded function or modelled from their documented semantics, as
  stated in each doc string;
* a Python exception is modelled by `Option.none` / `Except.error`.
-/

namespace Measurements

/-- A point of the plane with rational coordinates. -/
abbrev Pt : Type := ℚ × ℚ

/-- A polygon, given by its list of vertices (a `shapely.geometry.Polygon`
is constructed from such a list at lines 220, 221, 223, 232 of
`measurements.py`). -/
abbrev Poly : Type := List Pt

/-- The two shapely containment predicates used by `get_nuclei_features`
(`Polygon.contains` applied to a polygon at lines 224, 226, 233 and to a
point at line 242).  They are external library calls, so the validator is
embedded relative to an arbitrary pair of Boolean predicates; `convexGeom`
below instantiates them with the classical cross-product test, which agrees
with shapely on convex polygons in general position. -/
structure Geom where
  polyContains : Poly → Poly → Bool
  pointInside : Poly → Pt → Bool

/-- Cross product `(a - o) × (b - o)`; positive when `o, a, b` make a left
turn. -/
def cross (o a b : Pt) : ℚ :=
  (a.1 - o.1) * (b.2 - o.2) - (a.2 - o.2) * (b.1 - o.1)

/-- The directed edges of a polygon (each vertex paired with its cyclic
successor). -/
def polyEdges (poly : Poly) : List (Pt × Pt) :=
  poly.zip (poly.rotate 1)

/-- Point strictly inside a convex polygon: strictly on the same side of
every directed edge (either orientation of the vertex list is accepted). -/
def ptInOpen (poly : Poly) (p : Pt) : Bool :=
  (polyEdges poly).all (fun e => decide (0 < cross e.1 e.2 p)) ||
  (polyEdges poly).all (fun e => decide (cross e.1 e.2 p < 0))

/-- Point inside or on the boundary of a convex polygon. -/
def ptInClosed (poly : Poly) (p : Pt) : Bool :=
  (polyEdges poly).all (fun e => decide (0 ≤ cross e.1 e.2 p)) ||
  (polyEdges poly).all (fun e => decide (cross e.1 e.2 p ≤ 0))

/-- Instantiation of the shapely predicates for convex polygons:
`A.contains(B)` holds when every vertex of `B` lies in the closed region of
`A` and some vertex lies strictly inside (shapely: `B` inside the closure
of `A` with overlapping interiors); `A.contains(Point p)` holds when `p`
lies in the interior of `A`. -/
def convexGeom : Geom where
  polyContains := fun A B => B.all (ptInClosed A) && B.any (ptInOpen A)
  pointInside := fun A p => ptInOpen A p

/-- The frame polygon built at line 220 from `maxw, maxh = img.shape`:
`Polygon([(0, 0), (0, maxw), (maxh, maxw), (maxh, 0)])`. -/
def framePoly (maxw maxh : ℚ) : Poly :=
  [(0, 0), (0, maxw), (maxh, maxw), (maxh, 0)]

/-- The cell selected by the loop at lines 222-225:

    for cll in cell_list:
        cell = Polygon(cll['boundary'])
        if cell.contains(nuc):
            break

After the loop, `cell` is the first cell containing `nuc` if one exists,
the last element of the list if none does, and unbound (`none`: the
`UnboundLocalError` raised at line 226) if the list is empty. -/
def chooseCell (G : Geom) (nuc : Poly) : List Poly → Option Poly
  | [] => none
  | [c] => some c
  | c :: c2 :: rest =>
      if G.polyContains c nuc then some c else chooseCell G nuc (c2 :: rest)

/-- The 4-tuple returned by `get_nuclei_features`: the Python values
`(valid, cell, nuc, clist)`, where `cell` and `clist` may be `None`. -/
structure GNFResult where
  valid : Bool
  cell : Option Poly
  nucleus : Poly
  cents : Option (List Pt)
deriving DecidableEq

/-- Embedding of `get_nuclei_features` (lines 217-247).  `maxw, maxh` are
the two components of `img.shape`; `nuclei` is the candidate nucleus
vertex list; the boundary lists of `cell_list` and `nuclei_list` entries
are passed directly; `centrosome_list` holds the blob centres (shapely
ignores the third, radius, coordinate of `Point(cen)` in 2-D containment).
The result is `none` when the Python code raises (empty `cell_list`:
`cell` is never assigned and line 226 raises `UnboundLocalError`). -/
def get_nuclei_features (G : Geom) (maxw maxh : ℚ) (nuclei : Poly)
    (cell_list nuclei_list : List Poly) (centrosome_list : List Pt) :
    Option GNFResult :=
  match chooseCell G nuclei cell_list with
  | none => none
  | some cell =>
    if !(G.polyContains (framePoly maxw maxh) cell) ||
       !(G.polyContains cell nuclei) then
      some ⟨false, some cell, nuclei, none⟩
    else if (nuclei_list.filter (fun ncl => G.polyContains cell ncl)).length ≠ 1 then
      some ⟨false, some cell, nuclei, none⟩
    else
      if (centrosome_list.filter (fun cen => G.pointInside cell cen)).length = 0 ∨
         2 < (centrosome_list.filter (fun cen => G.pointInside cell cen)).length then
        some ⟨false, none, nuclei, none⟩
      else
        some ⟨true, some cell, nuclei,
          some (centrosome_list.filter (fun cen => G.pointInside cell cen))⟩

/-- The acceptance condition of the validator, relative to the chosen cell
`c`: the frame contains `c`, `c` contains the candidate nucleus, exactly
one entry of the nucleus list is contained in `c`, and the number of
centrosome points strictly inside `c` is 1 or 2. -/
def validCond (G : Geom) (maxw maxh : ℚ) (c nuc : Poly)
    (nuclei_list : List Poly) (centrosome_list : List Pt) : Prop :=
  G.polyContains (framePoly maxw maxh) c = true ∧
  G.polyContains c nuc = true ∧
  (nuclei_list.filter (fun ncl => G.polyContains c ncl)).length = 1 ∧
  ((centrosome_list.filter (fun cen => G.pointInside c cen)).length = 1 ∨
   (centrosome_list.filter (fun cen => G.pointInside c cen)).length = 2)

/-- Concrete data for the worked example of the spec: a cell square
(10,10)-(90,90). -/
def cellSq : Poly := [(10, 10), (10, 90), (90, 90), (90, 10)]

/-- Nucleus square (40,40)-(60,60). -/
def nucSq : Poly := [(40, 40), (40, 60), (60, 60), (60, 40)]

theorem chooseCell_eq_none_iff (G : Geom) (nuc : Poly) (cells : List Poly) :
    chooseCell G nuc cells = none ↔ cells = [] := by
  cases cells with
  | nil => simp [chooseCell]
  | cons c rest =>
    cases rest with
    | nil => simp [chooseCell]
    | cons c2 rest2 =>
      constructor
      · intro h
        exfalso
        induction rest2 generalizing c c2 with
        | nil =>
          by_cases hc : G.polyContains c nuc <;>
            simp [chooseCell, hc] at h
        | cons c3 rest3 ih =>
          by_cases hc : G.polyContains c nuc
          · simp [chooseCell, hc] at h
          · rw [chooseCell, if_neg (by simp [hc])] at h
            exact ih c2 c3 h
      · intro h
        exact absurd h (by simp)

theorem chooseCell_of_find (G : Geom) (nuc : Poly) (cells : List Poly)
    (c : Poly) (h : cells.find? (fun x => G.polyContains x nuc) = some c) :
    chooseCell G nuc cells = some c := by
  induction cells with
  | nil => simp at h
  | cons a rest ih =>
    by_cases ha : G.polyContains a nuc
    · simp only [List.find?_cons, ha] at h
      cases rest with
      | nil => simpa [chooseCell, eq_comm] using h.symm
      | cons b r2 => simpa [chooseCell, ha, eq_comm] using h.symm
    · have ha2 : G.polyContains a nuc = false := by simpa using ha
      simp only [List.find?_cons, ha2] at h
      cases rest with
      | nil => simp at h
      | cons b r2 =>
        rw [chooseCell, if_neg (by simp [ha])]
        exact ih h

theorem chooseCell_of_find_none (G : Geom) (nuc : Poly) (cells : List Poly)
    (hne : cells ≠ [])
    (h : cells.find? (fun x => G.polyContains x nuc) = none) :
    ∃ c, chooseCell G nuc cells = some c ∧ G.polyContains c nuc = false := by
  induction cells with
  | nil => exact absurd rfl hne
  | cons a rest ih =>
    have ha : ¬ (G.polyContains a nuc = true) := by
      intro hc
      have := List.find?_eq_none.mp h a (by simp)
      simp [hc] at this
    cases rest with
    | nil =>
      refine ⟨a, by simp [chooseCell], by simpa using ha⟩
    | cons b r2 =>
      have h2 : (b :: r2).find? (fun x => G.polyContains x nuc) = none := by
        have ha2 : G.polyContains a nuc = false := by simpa using ha
        simp only [List.find?_cons, ha2] at h
        exact h
      obtain ⟨c, hc1, hc2⟩ := ih (by simp) h2
      exact ⟨c, by rw [chooseCell, if_neg (by simp [ha])]; exact hc1, hc2⟩

theorem get_nuclei_features_eq_none (G : Geom) (maxw maxh : ℚ) (nuc : Poly)
    (cells nuclei_list : List Poly) (centrosome_list : List Pt)
    (hc : chooseCell G nuc cells = none) :
    get_nuclei_features G maxw maxh nuc cells nuclei_list centrosome_list = none := by
  unfold get_nuclei_features
  rw [hc]

theorem get_nuclei_features_eq_some (G : Geom) (maxw maxh : ℚ) (nuc : Poly)
    (cells nuclei_list : List Poly) (centrosome_list : List Pt) (c : Poly)
    (hc : chooseCell G nuc cells = some c) :
    get_nuclei_features G maxw maxh nuc cells nuclei_list centrosome_list =
      (if !(G.polyContains (framePoly maxw maxh) c) || !(G.polyContains c nuc) then
        some ⟨false, some c, nuc, none⟩
      else if (nuclei_list.filter (fun ncl => G.polyContains c ncl)).length ≠ 1 then
        some ⟨false, some c, nuc, none⟩
      else if (centrosome_list.filter (fun cen => G.pointInside c cen)).length = 0 ∨
          2 < (centrosome_list.filter (fun cen => G.pointInside c cen)).length then
        some ⟨false, none, nuc, none⟩
      else
        some ⟨true, some c, nuc,
          some (centrosome_list.filter (fun cen => G.pointInside c cen))⟩) := by
  unfold get_nuclei_features
  rw [hc]

/-- C1: a validator call that returns a tuple returns `valid = true`
exactly when the frame contains the chosen cell, the chosen cell contains
the candidate nucleus, exactly one polygon of the nucleus list lies in the
chosen cell, and the number of centrosome points strictly inside the
chosen cell is 1 or 2; and on success the tuple is
`(true, chosen cell, candidate nucleus, centrosomes inside the cell)`. -/
theorem C1_validator_accepts_iff (G : Geom) (maxw maxh : ℚ) (nuc : Poly)
    (cells nuclei_list : List Poly) (centrosome_list : List Pt) (r : GNFResult)
    (h : get_nuclei_features G maxw maxh nuc cells nuclei_list centrosome_list = some r) :
    ∃ c, chooseCell G nuc cells = some c ∧
      (r.valid = true ↔ validCond G maxw maxh c nuc nuclei_list centrosome_list) ∧
      (r.valid = true →
        r = ⟨true, some c, nuc,
          some (centrosome_list.filter (fun cen => G.pointInside c cen))⟩) := by
  cases hc : chooseCell G nuc cells with
  | none =>
    rw [get_nuclei_features_eq_none G maxw maxh nuc cells nuclei_list centrosome_list hc]
      at h
    cases h
  | some c =>
    rw [get_nuclei_features_eq_some G maxw maxh nuc cells nuclei_list centrosome_list c hc]
      at h
    refine ⟨c, rfl, ?_⟩
    simp only [validCond]
    split at h
    next h1 =>
      injection h with h2
      subst h2
      constructor
      · constructor
        · intro hv
          exact absurd hv (by simp)
        · intro hv
          obtain ⟨ha, hb, -, -⟩ := hv
          rw [ha, hb] at h1
          simp at h1
      · intro hv
        exact absurd hv (by simp)
    next h1 =>
      have ha : G.polyContains (framePoly maxw maxh) c = true := by
        cases hA : G.polyContains (framePoly maxw maxh) c
        · exact absurd (by simp [hA]) h1
        · rfl
      have hb : G.polyContains c nuc = true := by
        cases hB : G.polyContains c nuc
        · exact absurd (by simp [hB]) h1
        · rfl
      split at h
      next h2 =>
        injection h with h3
        subst h3
        constructor
        · constructor
          · intro hv
            exact absurd hv (by simp)
          · intro hv
            obtain ⟨-, -, hn1, -⟩ := hv
            exact absurd hn1 h2
        · intro hv
          exact absurd hv (by simp)
      next h2 =>
        have hn : (nuclei_list.filter (fun ncl => G.polyContains c ncl)).length = 1 := by
          by_contra hx
          exact h2 hx
        split at h
        next h3 =>
          injection h with h4
          subst h4
          constructor
          · constructor
            · intro hv
              exact absurd hv (by simp)
            · intro hv
              obtain ⟨-, -, -, hcnt⟩ := hv
              rcases h3 with h3 | h3 <;> rcases hcnt with h4 | h4 <;> omega
          · intro hv
            exact absurd hv (by simp)
        next h3 =>
          injection h with h4
          subst h4
          refine ⟨⟨fun _ => ⟨ha, hb, hn, ?_⟩, fun _ => rfl⟩, fun _ => rfl⟩
          omega

/-- C1 witness: the spec example — frame from a 100x100 image, cell square
(10,10)-(90,90), nucleus square (40,40)-(60,60), the nucleus list holding
only that nucleus, one centrosome at (50,50) — yields
`(true, cell, nucleus, [the centrosome])`, and the characterisation of C1
instantiated there. -/
theorem C1_witness :
    (get_nuclei_features convexGeom 100 100 nucSq [cellSq] [nucSq] [(50, 50)] =
      some ⟨true, some cellSq, nucSq, some [(50, 50)]⟩) ∧
    (∃ c, chooseCell convexGeom nucSq [cellSq] = some c ∧
      ((⟨true, some cellSq, nucSq, some [(50, 50)]⟩ : GNFResult).valid = true ↔
        validCond convexGeom 100 100 c nucSq [nucSq] [(50, 50)]) ∧
      ((⟨true, some cellSq, nucSq, some [(50, 50)]⟩ : GNFResult).valid = true →
        (⟨true, some cellSq, nucSq, some [(50, 50)]⟩ : GNFResult) =
          ⟨true, some c, nucSq,
            some ([(50, 50)].filter (fun cen => convexGeom.pointInside c cen))⟩)) :=
  have hEq : get_nuclei_features convexGeom 100 100 nucSq [cellSq] [nucSq] [(50, 50)] =
      some ⟨true, some cellSq, nucSq, some [(50, 50)]⟩ := by
    rw [get_nuclei_features_eq_some convexGeom 100 100 nucSq [cellSq] [nucSq] [(50, 50)]
      cellSq (by simp [chooseCell])]
    norm_num [convexGeom, ptInOpen, ptInClosed, polyEdges, cross, framePoly, cellSq,
      nucSq, List.rotate, List.filter]
  ⟨hEq, C1_validator_accepts_iff convexGeom 100 100 nucSq [cellSq] [nucSq] [(50, 50)] _ hEq⟩

/-- C2 counterexample: on an empty cell list the validator does not report
an invalid configuration through a `valid = false` tuple — it produces no
tuple at all: the loop at lines 222-225 never assigns `cell` and line 226
raises `UnboundLocalError` (modelled by `none`). -/
theorem C2_counterexample :
    get_nuclei_features convexGeom 100 100 nucSq [] [] [] = none :=
  get_nuclei_features_eq_none convexGeom 100 100 nucSq [] [] [] rfl

/-- C2 amended: for every input whose cell list is nonempty, the validator
returns a tuple (no exception); rejections are signalled by `valid = false`
inside that tuple. -/
theorem C2_amended_total_on_nonempty (G : Geom) (maxw maxh : ℚ) (nuc : Poly)
    (cells nuclei_list : List Poly) (centrosome_list : List Pt)
    (hne : cells ≠ []) :
    ∃ r, get_nuclei_features G maxw maxh nuc cells nuclei_list centrosome_list = some r := by
  cases hc : chooseCell G nuc cells with
  | none => exact absurd ((chooseCell_eq_none_iff G nuc cells).mp hc) hne
  | some c =>
    rw [get_nuclei_features_eq_some G maxw maxh nuc cells nuclei_list centrosome_list c hc]
    split
    · exact ⟨_, rfl⟩
    · split
      · exact ⟨_, rfl⟩
      · split
        · exact ⟨_, rfl⟩
        · exact ⟨_, rfl⟩

/-- C2 witness: amended statement instantiated on the one-cell example. -/
theorem C2_witness :
    ∃ r, get_nuclei_features convexGeom 100 100 nucSq [cellSq] [nucSq] [(50, 50)] = some r :=
  C2_amended_total_on_nonempty convexGeom 100 100 nucSq [cellSq] [nucSq] [(50, 50)]
    (by simp)

/-- C3 counterexample: a configuration in which no cell of the list
contains the candidate nucleus (here the list is empty, so vacuously no
cell contains it) for which the call does not return a `valid = false`
result: it raises (`none`), because `cell` is never assigned. -/
theorem C3_counterexample :
    get_nuclei_features convexGeom 50 50 [(20, 20), (20, 30), (30, 30), (30, 20)] [] [] [] =
      none :=
  get_nuclei_features_eq_none convexGeom 50 50 [(20, 20), (20, 30), (30, 30), (30, 20)]
    [] [] [] rfl

/-- C3 amended: if some cell of the list contains the candidate nucleus,
the first such cell (in list order) is the one the validator uses — the
call behaves exactly as if the cell list were just that cell; if the list
is nonempty and no cell contains the candidate, the call returns a tuple
with `valid = false`.  (With an empty cell list the call raises instead;
see the counterexample.) -/
theorem C3_first_match_wins (G : Geom) (maxw maxh : ℚ) (nuc : Poly)
    (cells nuclei_list : List Poly) (centrosome_list : List Pt) :
    (∀ c, cells.find? (fun x => G.polyContains x nuc) = some c →
      chooseCell G nuc cells = some c ∧
      get_nuclei_features G maxw maxh nuc cells nuclei_list centrosome_list =
        get_nuclei_features G maxw maxh nuc [c] nuclei_list centrosome_list) ∧
    (cells ≠ [] → cells.find? (fun x => G.polyContains x nuc) = none →
      ∃ r, get_nuclei_features G maxw maxh nuc cells nuclei_list centrosome_list = some r ∧
        r.valid = false) := by
  constructor
  · intro c hfind
    have h1 := chooseCell_of_find G nuc cells c hfind
    have h2 : chooseCell G nuc [c] = some c := by simp [chooseCell]
    refine ⟨h1, ?_⟩
    rw [get_nuclei_features_eq_some G maxw maxh nuc cells nuclei_list centrosome_list c h1,
      get_nuclei_features_eq_some G maxw maxh nuc [c] nuclei_list centrosome_list c h2]
  · intro hne hfind
    obtain ⟨c, hc, hcont⟩ := chooseCell_of_find_none G nuc cells hne hfind
    refine ⟨⟨false, some c, nuc, none⟩, ?_, rfl⟩
    rw [get_nuclei_features_eq_some G maxw maxh nuc cells nuclei_list centrosome_list c hc]
    rw [if_pos (by simp [hcont])]

/-- C3 witness: with two cells both listed, the first one containing the
nucleus is used — the result is the same as with that cell alone. -/
theorem C3_witness :
    (chooseCell convexGeom nucSq [cellSq, framePoly 100 100] = some cellSq ∧
      get_nuclei_features convexGeom 100 100 nucSq [cellSq, framePoly 100 100] [nucSq]
          [(50, 50)] =
        get_nuclei_features convexGeom 100 100 nucSq [cellSq] [nucSq] [(50, 50)]) :=
  (C3_first_match_wins convexGeom 100 100 nucSq [cellSq, framePoly 100 100] [nucSq]
    [(50, 50)]).1 cellSq (by
      norm_num [List.find?_cons, convexGeom, ptInOpen, ptInClosed, polyEdges, cross,
        cellSq, nucSq, List.rotate])

/-- The cosine of the rotation angle π/2 passed to
`tf.SimilarityTransform(rotation=math.pi / 2)` at lines 123 and 145.  The
source computes it in floating point (`cos(pi/2) ≈ 6.1e-17`); the model
uses the exact value 0, so the identities the spec states "within
floating-point tolerance" hold exactly here. -/
def cosHalfPi : ℚ := 0

/-- The sine of the rotation angle π/2 (exact value). -/
def sinHalfPi : ℚ := 1

/-- The rotation-by-π/2 similarity transform `tform` of lines 123 and 145
applied to one point: `(a, b) ↦ (a cos θ − b sin θ, a sin θ + b cos θ)`. -/
def tform (p : Pt) : Pt :=
  (p.1 * cosHalfPi - p.2 * sinHalfPi, p.1 * sinHalfPi + p.2 * cosHalfPi)

/-- The complete coordinate correction of lines 128-129 (`contr =
tform(contr); contr[:, 0] *= -1`) and 146-147 (`blobs_log[:, 0:2] =
tform(...); blobs_log[:, 0] *= -1`): rotate by π/2, then flip the sign of
the first coordinate. -/
def coordTransform (p : Pt) : Pt := (-(tform p).1, (tform p).2)

/-- The inverse of `coordTransform`: undo the sign flip on the first
coordinate, then rotate by −π/2. -/
def coordTransformInv (p : Pt) : Pt :=
  ((-p.1) * cosHalfPi + p.2 * sinHalfPi, -(-p.1) * sinHalfPi + p.2 * cosHalfPi)

theorem coordTransform_apply (p : Pt) : coordTransform p = (p.2, p.1) := by
  cases p with
  | mk a b => simp [coordTransform, tform, cosHalfPi, sinHalfPi]

theorem coordTransformInv_apply (p : Pt) : coordTransformInv p = (p.2, p.1) := by
  cases p with
  | mk a b => simp [coordTransformInv, cosHalfPi, sinHalfPi]

/-- The coordinate correction applied by `centrosomes` to the blob-centre
columns (lines 145-147); the radius column rescaled at line 144 is not
touched by the transform. -/
def centrosomes_coords (blobs : List Pt) : List Pt :=
  blobs.map coordTransform

/-- C8: the coordinate transform of the Contour Extractor and the
Centrosome Detector composed with its inverse is the identity: a point, a
polygon, or a centrosome coordinate list transformed forward and then
backward is reconstructed exactly (the model computes cos(π/2) and
sin(π/2) exactly, so no floating-point tolerance is needed). -/
theorem C8_transform_then_inverse_identity :
    (∀ p : Pt, coordTransformInv (coordTransform p) = p) ∧
    (∀ poly : Poly, (poly.map coordTransform).map coordTransformInv = poly) ∧
    (∀ blobs : List Pt, (centrosomes_coords blobs).map coordTransformInv = blobs) := by
  have hp : ∀ p : Pt, coordTransformInv (coordTransform p) = p := by
    intro p
    rw [coordTransform_apply, coordTransformInv_apply]
  refine ⟨hp, fun l => ?_, fun l => ?_⟩ <;>
    simp [centrosomes_coords, List.map_map, Function.comp_def, hp]

/-- C10: the composite coordinate transform — rotation by π/2 followed by
negating the first coordinate — is exactly the coordinate swap
`(a, b) ↦ (b, a)`, and hence an involution: applying it twice is the
identity. -/
theorem C10_transform_is_swap_involution :
    (∀ a b : ℚ, coordTransform (a, b) = (b, a)) ∧
    (∀ p : Pt, coordTransform (coordTransform p) = p) := by
  constructor
  · intro a b
    exact coordTransform_apply (a, b)
  · intro p
    rw [coordTransform_apply, coordTransform_apply]

/-- `np.roll(v, 1)` (line 119): rotate a vector one position to the right,
the last entry wrapping to the front. -/
def roll1 (v : List ℚ) : List ℚ :=
  match v.getLast? with
  | none => []
  | some a => a :: v.dropLast

/-- `np.dot` on two equal-length vectors. -/
def dotv (x y : List ℚ) : ℚ := (x.zipWith (fun a b => a * b) y).sum

/-- The shoelace helper `polygon_area(x, y)` of lines 118-119:
`0.5 * np.abs(np.dot(x, np.roll(y, 1)) - np.dot(y, np.roll(x, 1)))`. -/
def polygon_area (x y : List ℚ) : ℚ :=
  (1 / 2) * |dotv x (roll1 y) - dotv y (roll1 x)|

theorem polygon_area_comm (x y : List ℚ) : polygon_area y x = polygon_area x y := by
  unfold polygon_area
  rw [abs_sub_comm]

/-- A record `{id, boundary}` appended by `nuclei_features`
(lines 130-133). -/
structure ContourRec where
  id : ℕ
  boundary : List Pt
deriving DecidableEq

/-- Embedding of the contour loop of `nuclei_features` (lines 115-137).
`measure.find_contours(image, 0.9)` (line 122) is an external library
call, so the traced contours enter as the `contours` argument, in trace
order; `ax` is `None` on the measurement path, so the plotting branch is
skipped.  For each contour with enumeration index `k`, the shoelace area
of the raw contour is compared with `area_thresh` (kept only when
strictly greater, line 127), the coordinate correction of lines 128-129
is applied, and the record `{id := k, boundary}` is appended. -/
def nuclei_features (contours : List (List Pt)) (area_thresh : ℚ) : List ContourRec :=
  contours.enum.filterMap (fun kc =>
    if area_thresh < polygon_area (kc.2.map Prod.fst) (kc.2.map Prod.snd) then
      some ⟨kc.1, kc.2.map coordTransform⟩
    else none)

/-- The traced square contour (0,0)-(10,10), of shoelace area exactly
100. -/
def sqContour : List Pt := [(0, 0), (10, 0), (10, 10), (0, 10)]

/-- C7 counterexample: a traced contour whose shoelace area is exactly the
default threshold 100 is not below the threshold, yet `nuclei_features`
discards it (line 127 keeps a contour only when its area is strictly
greater), so "discarded exactly when its area is below the threshold"
fails. -/
theorem C7_counterexample :
    polygon_area (sqContour.map Prod.fst) (sqContour.map Prod.snd) = 100 ∧
    ¬ polygon_area (sqContour.map Prod.fst) (sqContour.map Prod.snd) < 100 ∧
    nuclei_features [sqContour] 100 = [] := by
  have harea : polygon_area (sqContour.map Prod.fst) (sqContour.map Prod.snd) = 100 := by
    norm_num [polygon_area, dotv, roll1, sqContour]
  refine ⟨harea, by rw [harea]; norm_num, ?_⟩
  norm_num [nuclei_features, List.enum, List.enumFrom, harea]

/-- C7 amended: a traced contour is discarded exactly when its shoelace
area is at or below the minimum-area threshold (the boundary case "area =
threshold" is discarded too): the contour at index `k` yields a record iff
its area strictly exceeds the threshold, and consequently every record in
the returned list has shoelace area strictly greater than the threshold —
in particular at least the threshold. -/
theorem C7_area_filter (contours : List (List Pt)) (area_thresh : ℚ) :
    (∀ k contr, contours[k]? = some contr →
      ((∃ r ∈ nuclei_features contours area_thresh, r.id = k) ↔
        area_thresh < polygon_area (contr.map Prod.fst) (contr.map Prod.snd))) ∧
    (∀ r ∈ nuclei_features contours area_thresh,
      area_thresh < polygon_area (r.boundary.map Prod.fst) (r.boundary.map Prod.snd)) := by
  constructor
  · intro k contr hget
    constructor
    · rintro ⟨r, hr, hid⟩
      obtain ⟨kc, hkc, hf⟩ := List.mem_filterMap.mp hr
      by_cases hcond :
          area_thresh < polygon_area (kc.2.map Prod.fst) (kc.2.map Prod.snd)
      · rw [if_pos hcond] at hf
        injection hf with hf2
        subst hf2
        simp only at hid
        subst hid
        have hmem := List.mk_mem_enum_iff_getElem?.mp (by
          have : kc = (kc.1, kc.2) := rfl
          rw [this] at hkc
          exact hkc)
        rw [hget] at hmem
        injection hmem with hmem2
        rw [hmem2]
        exact hcond
      · rw [if_neg hcond] at hf
        cases hf
    · intro hcond
      refine ⟨⟨k, contr.map coordTransform⟩, ?_, rfl⟩
      apply List.mem_filterMap.mpr
      refine ⟨(k, contr), List.mk_mem_enum_iff_getElem?.mpr hget, ?_⟩
      rw [if_pos hcond]
  · intro r hr
    obtain ⟨kc, hkc, hf⟩ := List.mem_filterMap.mp hr
    by_cases hcond :
        area_thresh < polygon_area (kc.2.map Prod.fst) (kc.2.map Prod.snd)
    · rw [if_pos hcond] at hf
      injection hf with hf2
      subst hf2
      simp only
      have hfst : (kc.2.map coordTransform).map Prod.fst = kc.2.map Prod.snd := by
        simp [List.map_map, Function.comp_def, coordTransform_apply]
      have hsnd : (kc.2.map coordTransform).map Prod.snd = kc.2.map Prod.fst := by
        simp [List.map_map, Function.comp_def, coordTransform_apply]
      rw [hfst, hsnd, polygon_area_comm]
      exact hcond
    · rw [if_neg hcond] at hf
      cases hf

/-- C7 witness: the amended filtering law instantiated on a single square
contour of area 100 against threshold 50: the contour is kept. -/
theorem C7_witness :
    ([sqContour][0]? = some sqContour) ∧
    ((∃ r ∈ nuclei_features [sqContour] 50, r.id = 0) ↔
      (50 : ℚ) < polygon_area (sqContour.map Prod.fst) (sqContour.map Prod.snd)) :=
  ⟨rfl, (C7_area_filter [sqContour] 50).1 0 sqContour rfl⟩

/-- A record `{id, boundary}` appended by `cell_boundary`
(lines 211-212). -/
structure CellRecord where
  id : ℤ
  boundary : List Pt
deriving DecidableEq

/-- Embedding of the boundary-packaging loop of `cell_boundary`
(lines 202-212).  The upstream pipeline (Gabor bank, thresholding,
watershed, lines 153-200) and `cv2.findContours` on each per-label mask
(lines 206-209) are external library computations: the watershed label
values enter as `uniq` (`np.unique(labels)`, line 204) and the traced
external contour of each label's mask as `contourOf`.  For every label
`l > 0` the loop appends `{id := l, boundary}` where the boundary is the
traced contour copied coordinate-by-coordinate (`[[x, y] for x, y in
[i[0] for i in contour]]`, line 211) — no coordinate transform is
applied on this path. -/
def cell_boundary (uniq : List ℤ) (contourOf : ℤ → List Pt) : List CellRecord :=
  (uniq.filter (fun l => decide (0 < l))).map
    (fun l => ⟨l, (contourOf l).map (fun xy => (xy.1, xy.2))⟩)

/-- C9: every boundary polygon returned by the cell-boundary packaging is
in raw pixel coordinates: the record's boundary equals the raw traced
contour of its (positive) label, with the rotation + axis-flip transform
of `nuclei_features`/`centrosomes` not applied. -/
theorem C9_cell_boundary_raw_coords (uniq : List ℤ) (contourOf : ℤ → List Pt) :
    ∀ r ∈ cell_boundary uniq contourOf, 0 < r.id ∧ r.boundary = contourOf r.id := by
  intro r hr
  unfold cell_boundary at hr
  obtain ⟨l, hl, rfl⟩ := List.mem_map.mp hr
  have hmem := List.mem_filter.mp hl
  refine ⟨by simpa using hmem.2, ?_⟩
  simp

/-- C9 witness: a two-label example (labels −1 and 1, the latter with a
non-trivial contour) in which the returned boundary is the raw contour. -/
theorem C9_witness :
    0 < (⟨1, [(3, 4), (5, 6)]⟩ : CellRecord).id ∧
    (⟨1, [(3, 4), (5, 6)]⟩ : CellRecord).boundary =
      (fun _ : ℤ => [((3 : ℚ), (4 : ℚ)), (5, 6)]) 1 :=
  C9_cell_boundary_raw_coords [-1, 1] (fun _ => [(3, 4), (5, 6)])
    ⟨1, [(3, 4), (5, 6)]⟩ (by simp [cell_boundary])

/-- A pixel of an `h × w` image (row, column). -/
abbrev Pix (h w : ℕ) := Fin h × Fin w

/-- 8-neighbourhood adjacency of two pixels: distinct and at Chebyshev
distance at most 1 (the default full connectivity used by
`segmentation.clear_border` and `measure.label` on 2-D images). -/
def adjacent {h w : ℕ} (p q : Pix h w) : Prop :=
  p ≠ q ∧ max (p.1.val - q.1.val) (q.1.val - p.1.val) ≤ 1 ∧
    max (p.2.val - q.2.val) (q.2.val - p.2.val) ≤ 1

instance {h w : ℕ} (p q : Pix h w) : Decidable (adjacent p q) := by
  unfold adjacent
  infer_instance

/-- One expansion step of a connected component inside the Boolean mask
`g`: keep `S` and add every mask pixel adjacent to some pixel of `S`. -/
def expand {h w : ℕ} (g : Fin h → Fin w → Bool) (S : Finset (Pix h w)) :
    Finset (Pix h w) :=
  S ∪ Finset.univ.filter (fun q => g q.1 q.2 = true ∧ ∃ p ∈ S, adjacent p q)

/-- The connected component of `p` in the mask `g` (empty when `p` is not
a mask pixel).  `h * w` expansion steps suffice to reach the fixpoint: a
step short of the fixpoint adds at least one of the at most `h * w`
pixels. -/
def reach {h w : ℕ} (g : Fin h → Fin w → Bool) (p : Pix h w) :
    Finset (Pix h w) :=
  (expand g)^[h * w] (if g p.1 p.2 = true then {p} else ∅)

/-- Border pixels: row 0, row `h − 1`, column 0, or column `w − 1`. -/
def isBorder {h w : ℕ} (p : Pix h w) : Prop :=
  p.1.val = 0 ∨ p.1.val = h - 1 ∨ p.2.val = 0 ∨ p.2.val = w - 1

instance {h w : ℕ} (p : Pix h w) : Decidable (isBorder p) := by
  unfold isBorder
  infer_instance

/-- Embedding of `segmentation.clear_border(thresh)` (line 77): a pixel
survives iff it is a mask pixel whose connected component contains no
border pixel (components touching the border are removed whole). -/
def clear_border {h w : ℕ} (g : Fin h → Fin w → Bool) :
    Fin h → Fin w → Bool :=
  fun i j => g i j && decide (∀ q ∈ reach g (i, j), ¬ isBorder q)

/-- Raster (row-major) index of a pixel. -/
def pixIdx {h w : ℕ} (p : Pix h w) : ℕ := p.1.val * w + p.2.val

/-- The raster index of the first pixel of the component of `p` — the
representative that fixes the component's place in the label order. -/
def compRep {h w : ℕ} (g : Fin h → Fin w → Bool) (p : Pix h w) : ℕ :=
  ((reach g p).image pixIdx).min.getD (pixIdx p)

/-- The set of component representatives of a mask. -/
def compReps {h w : ℕ} (g : Fin h → Fin w → Bool) : Finset ℕ :=
  (Finset.univ.filter (fun p : Pix h w => g p.1 p.2 = true)).image (compRep g)

/-- Embedding of `measure.label(cleared)` (line 78) on a Boolean mask:
background pixels get 0, and each component gets `1 + (the number of
components met earlier in a raster scan)` — skimage numbers components
1, 2, ... in the order a raster scan first meets them. -/
def label_img {h w : ℕ} (g : Fin h → Fin w → Bool) : Fin h → Fin w → ℕ :=
  fun i j =>
    if g i j = true then
      ((compReps g).sort (· ≤ ·)).indexOf (compRep g (i, j)) + 1
    else 0

/-- One row of the table built at lines 88-110, keyed by `p.label`
(line 105). -/
structure RegionRecord where
  label : ℕ
  area : ℕ
deriving DecidableEq

/-- The distinct positive labels present in a label image, in increasing
order. -/
def positiveLabels {h w : ℕ} (limg : Fin h → Fin w → ℕ) : List ℕ :=
  ((Finset.univ.image (fun p : Pix h w => limg p.1 p.2)).erase 0).sort (· ≤ ·)

/-- Models `measure.regionprops(label_image, intensity_image=image)` as
used at lines 88-105: one region per distinct positive label of the label
image, in increasing label order, keyed by `p.label`.  Of the statistics
collected at lines 89-104 only the pixel count `p.area` is reproduced;
the other entries are real-valued measurements of the same region that no
claim refers to. -/
def regionprops {h w : ℕ} (limg : Fin h → Fin w → ℕ) : List RegionRecord :=
  (positiveLabels limg).map (fun l =>
    ⟨l, (Finset.univ.filter (fun p : Pix h w => limg p.1 p.2 = l)).card⟩)

/-- Embedding of `nuclei_segmentation` (lines 62-112).  The preprocessing
of lines 70-73 (`threshold_otsu`, binarisation, `remove_small_holes`,
`remove_small_objects`) is a chain of external skimage calls; the Boolean
mask it produces enters as the argument `mask`, so the theorems below
hold for every possible preprocessing outcome.  Border clearing (line 77),
labeling (line 78) and the region table (lines 80-112) are modelled
concretely; the empty `pd.DataFrame` returned at line 107 when no region
survives is the empty list. -/
def nuclei_segmentation {h w : ℕ} (mask : Fin h → Fin w → Bool) :
    (Fin h → Fin w → ℕ) × List RegionRecord :=
  if (regionprops (label_img (clear_border mask))).length = 0 then
    (label_img (clear_border mask), [])
  else
    (label_img (clear_border mask), regionprops (label_img (clear_border mask)))

theorem subset_expand {h w : ℕ} (g : Fin h → Fin w → Bool)
    (S : Finset (Pix h w)) : S ⊆ expand g S :=
  Finset.subset_union_left

theorem subset_iterate_expand {h w : ℕ} (g : Fin h → Fin w → Bool) (n : ℕ)
    (S : Finset (Pix h w)) : S ⊆ (expand g)^[n] S := by
  induction n with
  | zero => simp
  | succ n ih =>
    rw [Function.iterate_succ_apply']
    exact ih.trans (subset_expand g _)

theorem mem_reach_self {h w : ℕ} (g : Fin h → Fin w → Bool) (p : Pix h w)
    (hp : g p.1 p.2 = true) : p ∈ reach g p := by
  unfold reach
  rw [if_pos hp]
  exact subset_iterate_expand g (h * w) {p} (Finset.mem_singleton_self p)

theorem clear_border_eq_false_of_isBorder {h w : ℕ}
    (g : Fin h → Fin w → Bool) (p : Pix h w) (hb : isBorder p) :
    clear_border g p.1 p.2 = false := by
  unfold clear_border
  cases hg : g p.1 p.2 with
  | false => rfl
  | true =>
    rw [Bool.true_and, decide_eq_false_iff_not]
    intro hall
    exact hall p (mem_reach_self g p hg) hb

theorem nuclei_segmentation_fst {h w : ℕ} (mask : Fin h → Fin w → Bool) :
    (nuclei_segmentation mask).1 = label_img (clear_border mask) := by
  unfold nuclei_segmentation
  split <;> rfl

theorem nuclei_segmentation_snd {h w : ℕ} (mask : Fin h → Fin w → Bool) :
    (nuclei_segmentation mask).2 =
      regionprops (label_img (clear_border mask)) := by
  unfold nuclei_segmentation
  split
  next hl => exact (List.length_eq_zero.mp hl).symm
  next => rfl

/-- C4: in every label image returned by `nuclei_segmentation` — for any
image, hence any preprocessing mask — no positive label owns a pixel on
row 0, row `h − 1`, column 0, or column `w − 1`: every border pixel is
labelled 0 (background). -/
theorem C4_no_label_touches_border {h w : ℕ} (mask : Fin h → Fin w → Bool)
    (p : Pix h w) (hb : isBorder p) :
    (nuclei_segmentation mask).1 p.1 p.2 = 0 := by
  rw [nuclei_segmentation_fst]
  unfold label_img
  rw [clear_border_eq_false_of_isBorder mask p hb]
  simp

/-- C4 witness: on a 2×2 image with an all-true mask, the corner pixel
(0,0) — a border pixel — is labelled 0. -/
theorem C4_witness :
    isBorder ((0 : Fin 2), (0 : Fin 2)) ∧
    (nuclei_segmentation (fun _ _ => true : Fin 2 → Fin 2 → Bool)).1 0 0 = 0 :=
  ⟨by decide,
    C4_no_label_touches_border (fun _ _ => true) ((0 : Fin 2), (0 : Fin 2))
      (by decide)⟩

/-- C6: the region table returned by `nuclei_segmentation` is indexed by
exactly the distinct positive labels of the returned label image (in
increasing order), so its row count equals the number of those labels;
and an all-background label image yields the empty table (without
raising). -/
theorem C6_table_matches_labels {h w : ℕ} (mask : Fin h → Fin w → Bool) :
    ((nuclei_segmentation mask).2.map RegionRecord.label =
      positiveLabels (nuclei_segmentation mask).1) ∧
    ((nuclei_segmentation mask).2.length =
      ((Finset.univ.image
        (fun p : Pix h w => (nuclei_segmentation mask).1 p.1 p.2)).erase 0).card) ∧
    ((∀ p : Pix h w, (nuclei_segmentation mask).1 p.1 p.2 = 0) →
      (nuclei_segmentation mask).2 = []) := by
  rw [nuclei_segmentation_fst, nuclei_segmentation_snd]
  refine ⟨?_, ?_, ?_⟩
  · unfold regionprops
    rw [List.map_map]
    exact List.map_id _
  · unfold regionprops positiveLabels
    rw [List.length_map, Finset.length_sort]
  · intro hall
    unfold regionprops
    have hempty : positiveLabels (label_img (clear_border mask)) = [] := by
      unfold positiveLabels
      have he : ((Finset.univ.image
          (fun p : Pix h w => label_img (clear_border mask) p.1 p.2)).erase 0) = ∅ := by
        ext x
        simp only [Finset.mem_erase, Finset.mem_image, Finset.mem_univ, true_and,
          Finset.not_mem_empty, iff_false, not_and]
        rintro hx0 ⟨p, hp⟩
        exact hx0 (by rw [← hp, hall p])
      rw [he, Finset.sort_empty]
    rw [hempty]
    rfl

/-- C6 witness: on a 1×1 image with an all-false mask (all background) the
returned table is empty. -/
theorem C6_witness :
    (nuclei_segmentation (fun _ _ => false : Fin 1 → Fin 1 → Bool)).2 = [] :=
  (C6_table_matches_labels (fun _ _ => false)).2.2 (by
    intro p
    rw [nuclei_segmentation_fst]
    rfl)

/-- The error outcomes relevant to claim C5.  `valueError` is the error
numpy raises inside the external `threshold_otsu` call on a zero-size
array; `invalidInputError` stands for the `InvalidInputError` class the
spec prescribes — it is declared here only so that its absence can be
stated: no such class exists anywhere in the repository, and
`nuclei_segmentation` contains no shape or dimensionality check. -/
inductive SegError where
  | valueError
  | invalidInputError
deriving DecidableEq

/-- Control-flow model of the input handling of `nuclei_segmentation`
(lines 62-78) as a function of the input array's numpy shape.  The source
performs no validation of its own: its first operation on the image is
the external `filters.threshold_otsu(image)` call (line 70), which raises
the library's `ValueError` on a zero-size array (a numpy reduction over
an empty axis has no identity) and otherwise accepts arrays of any
dimensionality — a non-2-D array is not rejected at entry and the
pipeline proceeds on it. -/
def nuclei_segmentation_entry (shape : List ℕ) : Except SegError Unit :=
  if shape.prod = 0 then Except.error SegError.valueError else Except.ok ()

/-- C5 counterexample: a 4×4×3 (non-2-D) image is not rejected — no
`InvalidInputError` is raised and the pipeline proceeds — and an empty
(0×0) image fails with the thresholding library's `ValueError`, not with
`InvalidInputError`. -/
theorem C5_counterexample :
    nuclei_segmentation_entry [4, 4, 3] = Except.ok () ∧
    nuclei_segmentation_entry [0, 0] = Except.error SegError.valueError := by
  constructor <;> rfl

/-- C5 amended: `nuclei_segmentation` performs no input validation:
`InvalidInputError` is never raised on any input shape — an empty image
fails inside the external thresholding call with the library's
`ValueError`, and a non-2-D array is not rejected at entry. -/
theorem C5_no_invalid_input_error (shape : List ℕ) :
    nuclei_segmentation_entry shape ≠ Except.error SegError.invalidInputError ∧
    (shape.prod = 0 →
      nuclei_segmentation_entry shape = Except.error SegError.valueError) := by
  unfold nuclei_segmentation_entry
  constructor
  · split
    · intro hcon
      injection hcon with h2
      cases h2
    · intro hcon
      cases hcon
  · intro hz
    rw [if_pos hz]

/-- C5 witness: the amended behaviour instantiated on the empty shape
0×5. -/
theorem C5_witness :
    nuclei_segmentation_entry [0, 5] = Except.error SegError.valueError :=
  (C5_no_invalid_input_error [0, 5]).2 rfl

end Measurements
